import Mathlib

/-!
Verification of the hazard-aware routing core (`routing_service.py`, with a
near-identical inline copy in `main.py`).

Embedding notes.
* Python floats (coordinates, radii, edge lengths) are embedded as `ℚ`;
  hazard levels and the danger threshold are `ℤ`.
* The road network is a directed multigraph: a list of vertices (an id
  together with the `y`/`x` coordinate attributes) and a list of edges, each
  carrying the endpoints, the multi-edge key and the `length` attribute.
  The pipeline graphs (osmnx `MultiDiGraph`) are always directed, so the
  `graph.to_directed()` guard of `identify_dangerous_edges` is a no-op and is
  not modelled.
* The geodesic distance is computed by the external `geopy` library
  (`geodesic(p, q).meters`).  It is transcendental, so the whole development
  is parameterized by the meter-valued distance function
  `d : Coordinate → Coordinate → ℚ`; the only facts ever assumed about it are
  the ones §4.1/§4.4 of the specification state for the geodesic
  (nonnegativity, zero on the diagonal, the triangle inequality).  geopy's
  `.km` accessor is exactly `.meters / 1000`, which is how the A* heuristic
  is embedded.  For closed statements the concrete stand-in `modelDist`
  (a scaled taxicab metric, in meters) instantiates the parameter.
-/

namespace HazardRouting

/-- Geographic coordinate: the `lat`/`lon` fields of the pydantic model
(equivalently a node's `y`/`x` attributes). -/
structure Coordinate where
  lat : ℚ
  lon : ℚ
deriving DecidableEq

/-- Hazard zone (`models.py`): center, level (1-10) and radius in meters.
The id/name/timestamp fields play no role in the routing core. -/
structure HazardZone where
  lat : ℚ
  lon : ℚ
  level : ℤ
  radius_m : ℚ
deriving DecidableEq

/-- One directed edge instance of the multigraph, with its multi-edge `key`
and its `length` attribute in meters. -/
structure Edge where
  u : ℕ
  v : ℕ
  key : ℕ
  length : ℚ
deriving DecidableEq

/-- The road network graph: vertex ids with their coordinate attributes, and
the directed edge instances. -/
structure Graph where
  nodes : List (ℕ × Coordinate)
  edges : List Edge
deriving DecidableEq

/-- Edge identifier `(u, v, key)`, addressing one directed edge instance. -/
abbrev EdgeId := ℕ × ℕ × ℕ

/-- The identifier of an edge instance. -/
def Edge.id (e : Edge) : EdgeId := (e.u, e.v, e.key)

/-- Coordinate attributes of a vertex: `graph.nodes[u]['y'], graph.nodes[u]['x']`.
Total accessor; the default is never reached on graphs whose edges refer to
present vertices. -/
def nodeCoord (g : Graph) (n : ℕ) : Coordinate :=
  (((g.nodes.find? fun p => p.1 == n).map Prod.snd).getD ⟨0, 0⟩)

/-- Center point of a hazard: `hazard_point = (hazard.lat, hazard.lon)`. -/
def hazardPoint (h : HazardZone) : Coordinate := ⟨h.lat, h.lon⟩

/-- Arithmetic-mean midpoint of two coordinates:
`mid_lat = (u_lat + v_lat) / 2`, `mid_lon = (u_lon + v_lon) / 2`. -/
def midpoint (a b : Coordinate) : Coordinate :=
  ⟨(a.lat + b.lat) / 2, (a.lon + b.lon) / 2⟩

/-- `min_distance = min(dist_to_u, dist_to_v, dist_to_mid)` for one hazard and
one edge, where `d` is the meter-valued geodesic distance. -/
def edgeMinDist (d : Coordinate → Coordinate → ℚ) (g : Graph) (h : HazardZone)
    (e : Edge) : ℚ :=
  min (d (hazardPoint h) (nodeCoord g e.u))
    (min (d (hazardPoint h) (nodeCoord g e.v))
      (d (hazardPoint h) (midpoint (nodeCoord g e.u) (nodeCoord g e.v))))

/-- The §4.2 distance test: the hazard's zone intersects the edge. -/
def qualifies (d : Coordinate → Coordinate → ℚ) (g : Graph) (h : HazardZone)
    (e : Edge) : Prop :=
  edgeMinDist d g h e ≤ h.radius_m

instance (d g h e) : Decidable (qualifies d g h e) := by
  unfold qualifies; infer_instance

/-- Accumulated state of `identify_dangerous_edges`: the `dangerous_edges`
list, the `edge_hazard_levels` dict (an insertion-ordered association list,
as Python dicts are), and the two `stats` counters. -/
structure ClassifyState where
  dangerous : List EdgeId
  levels : List (EdgeId × ℤ)
  edgesChecked : ℕ
  hazardsProcessed : ℕ
deriving DecidableEq

/-- Dict lookup `edge_hazard_levels.get(edge_id)`. -/
def lookupLevel : List (EdgeId × ℤ) → EdgeId → Option ℤ
  | [], _ => none
  | (k, l) :: rest, x => if k = x then some l else lookupLevel rest x

/-- Dict assignment `edge_hazard_levels[edge_id] = l`: replaces in place, or
appends a new key at the end (Python dicts preserve insertion order). -/
def setLevel : List (EdgeId × ℤ) → EdgeId → ℤ → List (EdgeId × ℤ)
  | [], x, l => [(x, l)]
  | (k, l₀) :: rest, x, l =>
      if k = x then (x, l) :: rest else (k, l₀) :: setLevel rest x l

/-- Body of the inner edge loop of `identify_dangerous_edges` for the hazard
`h` (already known to be above threshold by the outer loop guard). -/
def processEdge (d : Coordinate → Coordinate → ℚ) (g : Graph) (t : ℤ)
    (h : HazardZone) (st : ClassifyState) (e : Edge) : ClassifyState :=
  let st := { st with edgesChecked := st.edgesChecked + 1 }
  if qualifies d g h e then
    let cur := (lookupLevel st.levels e.id).getD 0
    let st := { st with levels := setLevel st.levels e.id (max cur h.level) }
    if t < h.level ∧ e.id ∉ st.dangerous then
      { st with dangerous := st.dangerous ++ [e.id] }
    else st
  else st

/-- Body of the outer hazard loop: skip hazards at or below the threshold,
otherwise bump `hazards_processed` and scan every edge. -/
def processHazard (d : Coordinate → Coordinate → ℚ) (g : Graph) (t : ℤ)
    (st : ClassifyState) (h : HazardZone) : ClassifyState :=
  if h.level ≤ t then st
  else
    g.edges.foldl (processEdge d g t h)
      { st with hazardsProcessed := st.hazardsProcessed + 1 }

/-- `identify_dangerous_edges(graph, hazards, danger_threshold)`
(`routing_service.py:46`, `main.py:101`): returns the dangerous edge list,
the edge-level dict and the stats counters. -/
def identify_dangerous_edges (d : Coordinate → Coordinate → ℚ) (g : Graph)
    (hazards : List HazardZone) (t : ℤ) : ClassifyState :=
  hazards.foldl (processHazard d g t) ⟨[], [], 0, 0⟩

/-- Levels of the hazards above threshold whose zone intersects the edge
identified by `x`, in input order. -/
def qualifyingLevels (d : Coordinate → Coordinate → ℚ) (g : Graph) (t : ℤ)
    (hazards : List HazardZone) (x : EdgeId) : List ℤ :=
  (hazards.filter fun h =>
      decide (t < h.level) &&
        decide (∃ e ∈ g.edges, e.id = x ∧ qualifies d g h e)).map
    HazardZone.level

/-- Folding the max-update of `edge_hazard_levels[edge_id]` over a list of
qualifying hazard levels, starting from an optional current entry. -/
def applyQ (o : Option ℤ) (ls : List ℤ) : Option ℤ :=
  ls.foldl (fun o l => some (max (o.getD 0) l)) o

theorem lookupLevel_setLevel (lv : List (EdgeId × ℤ)) (x y : EdgeId) (l : ℤ) :
    lookupLevel (setLevel lv x l) y =
      if x = y then some l else lookupLevel lv y := by
  induction lv with
  | nil =>
      simp only [setLevel, lookupLevel]
  | cons kl rest ih =>
      obtain ⟨k, l₀⟩ := kl
      by_cases hkx : k = x
      · subst hkx
        by_cases hky : k = y
        · subst hky
          simp [setLevel, lookupLevel]
        · simp [setLevel, lookupLevel, hky]
      · simp only [setLevel, if_neg hkx, lookupLevel, ih]
        by_cases hky : k = y
        · subst hky
          rw [if_pos rfl, if_neg fun hxy => hkx hxy.symm, if_pos rfl]
        · rw [if_neg hky]
          by_cases hxy : x = y
          · rw [if_pos hxy, if_pos hxy]
          · rw [if_neg hxy, if_neg hxy, if_neg hky]

theorem processEdge_eq (d : Coordinate → Coordinate → ℚ) (g : Graph) (t : ℤ)
    (h : HazardZone) (st : ClassifyState) (e : Edge) :
    processEdge d g t h st e =
      if qualifies d g h e then
        if t < h.level ∧ e.id ∉ st.dangerous then
          { dangerous := st.dangerous ++ [e.id]
            levels :=
              setLevel st.levels e.id
                (max ((lookupLevel st.levels e.id).getD 0) h.level)
            edgesChecked := st.edgesChecked + 1
            hazardsProcessed := st.hazardsProcessed }
        else
          { st with
            levels :=
              setLevel st.levels e.id
                (max ((lookupLevel st.levels e.id).getD 0) h.level)
            edgesChecked := st.edgesChecked + 1 }
      else { st with edgesChecked := st.edgesChecked + 1 } := rfl

theorem processEdge_lookupLevel (d : Coordinate → Coordinate → ℚ) (g : Graph)
    (t : ℤ) (h : HazardZone) (st : ClassifyState) (e : Edge) (y : EdgeId) :
    lookupLevel (processEdge d g t h st e).levels y =
      if e.id = y ∧ qualifies d g h e then
        some (max ((lookupLevel st.levels y).getD 0) h.level)
      else lookupLevel st.levels y := by
  rw [processEdge_eq]
  by_cases hq : qualifies d g h e
  · rw [if_pos hq]
    split
    · dsimp only
      rw [lookupLevel_setLevel]
      by_cases hid : e.id = y
      · subst hid
        rw [if_pos rfl, if_pos ⟨rfl, hq⟩]
      · rw [if_neg hid, if_neg fun hc => hid hc.1]
    · dsimp only
      rw [lookupLevel_setLevel]
      by_cases hid : e.id = y
      · subst hid
        rw [if_pos rfl, if_pos ⟨rfl, hq⟩]
      · rw [if_neg hid, if_neg fun hc => hid hc.1]
  · rw [if_neg hq, if_neg fun hc : Edge.id e = y ∧ qualifies d g h e => hq hc.2]

theorem processEdge_mem_dangerous (d : Coordinate → Coordinate → ℚ)
    (g : Graph) (t : ℤ) (h : HazardZone) (ht : t < h.level)
    (st : ClassifyState) (e : Edge) (y : EdgeId) :
    y ∈ (processEdge d g t h st e).dangerous ↔
      y ∈ st.dangerous ∨ (e.id = y ∧ qualifies d g h e) := by
  rw [processEdge_eq]
  by_cases hq : qualifies d g h e
  · rw [if_pos hq]
    by_cases hmem : e.id ∈ st.dangerous
    · rw [if_neg (by simp [hmem])]
      simp only []
      constructor
      · exact fun hy => Or.inl hy
      · rintro (hy | ⟨rfl, -⟩)
        · exact hy
        · exact hmem
    · rw [if_pos ⟨ht, hmem⟩]
      simp only [List.mem_append, List.mem_singleton]
      constructor
      · rintro (hy | rfl)
        · exact Or.inl hy
        · exact Or.inr ⟨rfl, hq⟩
      · rintro (hy | ⟨rfl, -⟩)
        · exact Or.inl hy
        · exact Or.inr rfl
  · rw [if_neg hq]
    simp only []
    constructor
    · exact fun hy => Or.inl hy
    · rintro (hy | ⟨-, hqe⟩)
      · exact hy
      · exact absurd hqe hq

theorem processEdge_nodup (d : Coordinate → Coordinate → ℚ) (g : Graph)
    (t : ℤ) (h : HazardZone) (st : ClassifyState) (e : Edge)
    (hst : st.dangerous.Nodup) :
    (processEdge d g t h st e).dangerous.Nodup := by
  rw [processEdge_eq]
  split
  · split
    · rename_i hcond
      simpa [List.nodup_append] using ⟨hst, hcond.2⟩
    · exact hst
  · exact hst

theorem foldl_processEdge_lookupLevel (d : Coordinate → Coordinate → ℚ)
    (g : Graph) (t : ℤ) (h : HazardZone) :
    ∀ (es : List Edge) (st : ClassifyState) (y : EdgeId),
      lookupLevel ((es.foldl (processEdge d g t h) st).levels) y =
        if ∃ e ∈ es, e.id = y ∧ qualifies d g h e then
          some (max ((lookupLevel st.levels y).getD 0) h.level)
        else lookupLevel st.levels y := by
  intro es
  induction es with
  | nil => intro st y; simp
  | cons e es ih =>
      intro st y
      rw [List.foldl_cons, ih]
      rw [processEdge_lookupLevel]
      by_cases ha : e.id = y ∧ qualifies d g h e
      · rw [if_pos ha]
        by_cases hb : ∃ e' ∈ es, e'.id = y ∧ qualifies d g h e'
        · rw [if_pos hb, if_pos (by exact ⟨e, List.mem_cons_self e es, ha⟩)]
          simp [max_assoc]
        · rw [if_neg hb, if_pos (by exact ⟨e, List.mem_cons_self e es, ha⟩)]
      · rw [if_neg ha]
        by_cases hb : ∃ e' ∈ es, e'.id = y ∧ qualifies d g h e'
        · rw [if_pos hb, if_pos (by
            obtain ⟨e', he', hq⟩ := hb
            exact ⟨e', List.mem_cons_of_mem e he', hq⟩)]
        · rw [if_neg hb, if_neg (by
            rintro ⟨e', he', hq⟩
            rcases List.mem_cons.mp he' with rfl | he'
            · exact ha hq
            · exact hb ⟨e', he', hq⟩)]

theorem foldl_processEdge_mem_dangerous (d : Coordinate → Coordinate → ℚ)
    (g : Graph) (t : ℤ) (h : HazardZone) (ht : t < h.level) :
    ∀ (es : List Edge) (st : ClassifyState) (y : EdgeId),
      y ∈ (es.foldl (processEdge d g t h) st).dangerous ↔
        y ∈ st.dangerous ∨ ∃ e ∈ es, e.id = y ∧ qualifies d g h e := by
  intro es
  induction es with
  | nil => intro st y; simp
  | cons e es ih =>
      intro st y
      rw [List.foldl_cons, ih, processEdge_mem_dangerous d g t h ht]
      constructor
      · rintro ((hy | hy) | ⟨e', he', hq⟩)
        · exact Or.inl hy
        · exact Or.inr ⟨e, List.mem_cons_self e es, hy⟩
        · exact Or.inr ⟨e', List.mem_cons_of_mem e he', hq⟩
      · rintro (hy | ⟨e', he', hq⟩)
        · exact Or.inl (Or.inl hy)
        · rcases List.mem_cons.mp he' with rfl | he'
          · exact Or.inl (Or.inr hq)
          · exact Or.inr ⟨e', he', hq⟩

theorem foldl_processEdge_nodup (d : Coordinate → Coordinate → ℚ) (g : Graph)
    (t : ℤ) (h : HazardZone) :
    ∀ (es : List Edge) (st : ClassifyState),
      st.dangerous.Nodup → ((es.foldl (processEdge d g t h) st).dangerous).Nodup := by
  intro es
  induction es with
  | nil => intro st hst; exact hst
  | cons e es ih =>
      intro st hst
      exact ih _ (processEdge_nodup d g t h st e hst)

theorem processHazard_skip (d : Coordinate → Coordinate → ℚ) (g : Graph)
    (t : ℤ) (st : ClassifyState) (h : HazardZone) (hle : h.level ≤ t) :
    processHazard d g t st h = st := by
  rw [processHazard, if_pos hle]

theorem applyQ_cons (o : Option ℤ) (l : ℤ) (ls : List ℤ) :
    applyQ o (l :: ls) = applyQ (some (max (o.getD 0) l)) ls := rfl

theorem foldl_processHazard_lookupLevel (d : Coordinate → Coordinate → ℚ)
    (g : Graph) (t : ℤ) :
    ∀ (hs : List HazardZone) (st : ClassifyState) (y : EdgeId),
      lookupLevel ((hs.foldl (processHazard d g t) st).levels) y =
        applyQ (lookupLevel st.levels y) (qualifyingLevels d g t hs y) := by
  intro hs
  induction hs with
  | nil => intro st y; simp [qualifyingLevels, applyQ]
  | cons h hs ih =>
      intro st y
      rw [List.foldl_cons, ih]
      by_cases hskip : h.level ≤ t
      · rw [processHazard_skip d g t st h hskip]
        have hfilter :
            qualifyingLevels d g t (h :: hs) y = qualifyingLevels d g t hs y := by
          rw [qualifyingLevels, qualifyingLevels, List.filter_cons,
            if_neg (by simp [not_lt.mpr hskip])]
        rw [hfilter]
      · push_neg at hskip
        rw [processHazard, if_neg (not_le.mpr hskip)]
        rw [foldl_processEdge_lookupLevel]
        by_cases hex : ∃ e ∈ g.edges, e.id = y ∧ qualifies d g h e
        · have hfilter :
              qualifyingLevels d g t (h :: hs) y =
                h.level :: qualifyingLevels d g t hs y := by
            rw [qualifyingLevels, qualifyingLevels, List.filter_cons,
              if_pos (by simp [hskip, hex]), List.map_cons]
          rw [hfilter, applyQ_cons, if_pos hex]
        · have hfilter :
              qualifyingLevels d g t (h :: hs) y = qualifyingLevels d g t hs y := by
            rw [qualifyingLevels, qualifyingLevels, List.filter_cons,
              if_neg (by simp [hex])]
          rw [hfilter, if_neg hex]

theorem foldl_processHazard_mem_dangerous (d : Coordinate → Coordinate → ℚ)
    (g : Graph) (t : ℤ) :
    ∀ (hs : List HazardZone) (st : ClassifyState) (y : EdgeId),
      y ∈ (hs.foldl (processHazard d g t) st).dangerous ↔
        y ∈ st.dangerous ∨
          ∃ h ∈ hs, t < h.level ∧ ∃ e ∈ g.edges, e.id = y ∧ qualifies d g h e := by
  intro hs
  induction hs with
  | nil => intro st y; simp
  | cons h hs ih =>
      intro st y
      rw [List.foldl_cons, ih]
      by_cases hskip : h.level ≤ t
      · rw [processHazard_skip d g t st h hskip]
        constructor
        · rintro (hy | hrest)
          · exact Or.inl hy
          · obtain ⟨h', hh', hlt, hq⟩ := hrest
            exact Or.inr ⟨h', List.mem_cons_of_mem h hh', hlt, hq⟩
        · rintro (hy | ⟨h', hh', hlt, hq⟩)
          · exact Or.inl hy
          · rcases List.mem_cons.mp hh' with rfl | hh'
            · exact absurd hlt (not_lt.mpr hskip)
            · exact Or.inr ⟨h', hh', hlt, hq⟩
      · push_neg at hskip
        rw [processHazard, if_neg (not_le.mpr hskip)]
        rw [foldl_processEdge_mem_dangerous d g t h hskip]
        constructor
        · rintro ((hy | hq) | ⟨h', hh', hlt, hq⟩)
          · exact Or.inl hy
          · exact Or.inr ⟨h, List.mem_cons_self h hs, hskip, hq⟩
          · exact Or.inr ⟨h', List.mem_cons_of_mem h hh', hlt, hq⟩
        · rintro (hy | ⟨h', hh', hlt, hq⟩)
          · exact Or.inl (Or.inl hy)
          · rcases List.mem_cons.mp hh' with rfl | hh'
            · exact Or.inl (Or.inr hq)
            · exact Or.inr ⟨h', hh', hlt, hq⟩

theorem foldl_processHazard_nodup (d : Coordinate → Coordinate → ℚ)
    (g : Graph) (t : ℤ) :
    ∀ (hs : List HazardZone) (st : ClassifyState),
      st.dangerous.Nodup →
        ((hs.foldl (processHazard d g t) st).dangerous).Nodup := by
  intro hs
  induction hs with
  | nil => intro st hst; exact hst
  | cons h hs ih =>
      intro st hst
      refine ih _ ?_
      rw [processHazard]
      split
      · exact hst
      · exact foldl_processEdge_nodup d g t h g.edges _ hst

theorem mem_dangerous_iff (d : Coordinate → Coordinate → ℚ) (g : Graph)
    (hs : List HazardZone) (t : ℤ) (y : EdgeId) :
    y ∈ (identify_dangerous_edges d g hs t).dangerous ↔
      ∃ h ∈ hs, t < h.level ∧ ∃ e ∈ g.edges, e.id = y ∧ qualifies d g h e := by
  rw [identify_dangerous_edges, foldl_processHazard_mem_dangerous]
  simp

theorem dangerous_nodup (d : Coordinate → Coordinate → ℚ) (g : Graph)
    (hs : List HazardZone) (t : ℤ) :
    ((identify_dangerous_edges d g hs t).dangerous).Nodup := by
  rw [identify_dangerous_edges]
  exact foldl_processHazard_nodup d g t hs _ List.nodup_nil

theorem lookupLevel_identify (d : Coordinate → Coordinate → ℚ) (g : Graph)
    (hs : List HazardZone) (t : ℤ) (y : EdgeId) :
    lookupLevel (identify_dangerous_edges d g hs t).levels y =
      applyQ none (qualifyingLevels d g t hs y) := by
  rw [identify_dangerous_edges, foldl_processHazard_lookupLevel]
  rfl

theorem applyQ_some (a : ℤ) (ls : List ℤ) :
    applyQ (some a) ls = some (ls.foldl max a) := by
  induction ls generalizing a with
  | nil => rfl
  | cons l ls ih => rw [applyQ_cons, List.foldl_cons]; exact ih (max a l)

theorem applyQ_none_eq (ls : List ℤ) :
    applyQ none ls = if ls = [] then none else some (ls.foldl max 0) := by
  cases ls with
  | nil => rfl
  | cons l ls =>
      rw [applyQ_cons, if_neg (List.cons_ne_nil l ls), List.foldl_cons]
      exact applyQ_some _ ls

theorem foldl_max_le_self (ls : List ℤ) : ∀ a : ℤ, a ≤ ls.foldl max a := by
  induction ls with
  | nil => intro a; exact le_refl a
  | cons l ls ih =>
      intro a
      rw [List.foldl_cons]
      exact le_trans (le_max_left a l) (ih (max a l))

theorem foldl_max_mem_le (ls : List ℤ) :
    ∀ (a l : ℤ), l ∈ ls → l ≤ ls.foldl max a := by
  induction ls with
  | nil => intro a l hl; exact absurd hl (List.not_mem_nil l)
  | cons l₀ ls ih =>
      intro a l hl
      rw [List.foldl_cons]
      rcases List.mem_cons.mp hl with rfl | hl
      · exact le_trans (le_max_right a l) (foldl_max_le_self ls (max a l))
      · exact ih (max a l₀) l hl

theorem foldl_max_mem_or (ls : List ℤ) :
    ∀ a : ℤ, ls.foldl max a = a ∨ ls.foldl max a ∈ ls := by
  induction ls with
  | nil => intro a; exact Or.inl rfl
  | cons l ls ih =>
      intro a
      rw [List.foldl_cons]
      rcases ih (max a l) with heq | hmem
      · rw [heq]
        rcases max_choice a l with hc | hc
        · exact Or.inl hc
        · exact Or.inr (by rw [hc]; exact List.mem_cons_self l ls)
      · exact Or.inr (List.mem_cons_of_mem l hmem)

theorem foldl_max_perm {ls₁ ls₂ : List ℤ} (hperm : ls₁.Perm ls₂) :
    ∀ a : ℤ, ls₁.foldl max a = ls₂.foldl max a := by
  induction hperm with
  | nil => intro a; rfl
  | cons x _ ih =>
      intro a
      rw [List.foldl_cons, List.foldl_cons]
      exact ih (max a x)
  | swap x y l =>
      intro a
      rw [List.foldl_cons, List.foldl_cons, List.foldl_cons, List.foldl_cons]
      have hmax : max (max a y) x = max (max a x) y := by
        rw [max_assoc, max_comm y x, ← max_assoc]
      rw [hmax]
  | trans _ _ ih₁ ih₂ =>
      intro a
      exact (ih₁ a).trans (ih₂ a)

theorem mem_qualifyingLevels (d : Coordinate → Coordinate → ℚ) (g : Graph)
    (t : ℤ) (hs : List HazardZone) (y : EdgeId) (l : ℤ)
    (hl : l ∈ qualifyingLevels d g t hs y) :
    ∃ h ∈ hs, h.level = l ∧ t < h.level ∧
      ∃ e ∈ g.edges, e.id = y ∧ qualifies d g h e := by
  rw [qualifyingLevels] at hl
  obtain ⟨h, hh, rfl⟩ := List.mem_map.mp hl
  have hmem := List.mem_filter.mp hh
  have hb := hmem.2
  simp only [Bool.and_eq_true, decide_eq_true_eq] at hb
  exact ⟨h, hmem.1, rfl, hb.1, hb.2⟩

theorem qualifyingLevels_ne_nil_iff (d : Coordinate → Coordinate → ℚ)
    (g : Graph) (t : ℤ) (hs : List HazardZone) (y : EdgeId) :
    qualifyingLevels d g t hs y ≠ [] ↔
      ∃ h ∈ hs, t < h.level ∧ ∃ e ∈ g.edges, e.id = y ∧ qualifies d g h e := by
  constructor
  · intro hne
    obtain ⟨l, hl⟩ := List.exists_mem_of_ne_nil _ hne
    obtain ⟨h, hh, -, hlt, hex⟩ := mem_qualifyingLevels d g t hs y l hl
    exact ⟨h, hh, hlt, hex⟩
  · rintro ⟨h, hh, hlt, hex⟩ heq
    have hmem : h.level ∈ qualifyingLevels d g t hs y := by
      rw [qualifyingLevels]
      exact List.mem_map_of_mem HazardZone.level
        (List.mem_filter.mpr ⟨hh, by simp [hlt, hex]⟩)
    rw [heq] at hmem
    exact absurd hmem (List.not_mem_nil _)

theorem foldl_processHazard_filter (d : Coordinate → Coordinate → ℚ)
    (g : Graph) (t : ℤ) :
    ∀ (hs : List HazardZone) (st : ClassifyState),
      ((hs.filter fun h => decide (t < h.level)).foldl (processHazard d g t) st)
        = hs.foldl (processHazard d g t) st := by
  intro hs
  induction hs with
  | nil => intro st; rfl
  | cons h hs ih =>
      intro st
      rw [List.filter_cons]
      by_cases hlt : t < h.level
      · rw [if_pos (by simpa using hlt), List.foldl_cons, List.foldl_cons, ih]
      · rw [if_neg (by simpa using hlt), List.foldl_cons,
          processHazard_skip d g t st h (not_lt.mp hlt), ih]

/-- C1: `identify_dangerous_edges` puts an edge identifier in the dangerous
output exactly when some hazard with level strictly above the threshold is
within its radius of the edge's source vertex, destination vertex, or
arithmetic-mean midpoint (minimum of the three geodesic distances ≤ radius),
and the output list contains no duplicate identifier. -/
theorem claim_C1_classify_dangerous_iff_nodup
    (d : Coordinate → Coordinate → ℚ) (g : Graph) (hs : List HazardZone)
    (t : ℤ) (y : EdgeId) :
    (y ∈ (identify_dangerous_edges d g hs t).dangerous ↔
        ∃ h ∈ hs, t < h.level ∧
          ∃ e ∈ g.edges, e.id = y ∧ edgeMinDist d g h e ≤ h.radius_m)
      ∧ ((identify_dangerous_edges d g hs t).dangerous).Nodup :=
  ⟨mem_dangerous_iff d g hs t y, dangerous_nodup d g hs t⟩

/-- C1 witness: on a concrete one-edge graph with one hazard of level 5 and
threshold 3 whose zone covers the edge's source vertex, the edge identifier
is flagged dangerous and the output list has no duplicates. -/
theorem claim_C1_witness :
    ((1, 2, 0) ∈ (identify_dangerous_edges
        (fun _ _ => (0 : ℚ))
        ⟨[(1, ⟨0, 0⟩), (2, ⟨1, 0⟩)], [⟨1, 2, 0, 100⟩]⟩
        [⟨0, 0, 5, 2⟩] 3).dangerous)
      ∧ ((identify_dangerous_edges
        (fun _ _ => (0 : ℚ))
        ⟨[(1, ⟨0, 0⟩), (2, ⟨1, 0⟩)], [⟨1, 2, 0, 100⟩]⟩
        [⟨0, 0, 5, 2⟩] 3).dangerous).Nodup := by
  constructor
  · exact (claim_C1_classify_dangerous_iff_nodup
      (fun _ _ => (0 : ℚ))
      ⟨[(1, ⟨0, 0⟩), (2, ⟨1, 0⟩)], [⟨1, 2, 0, 100⟩]⟩
      [⟨0, 0, 5, 2⟩] 3 (1, 2, 0)).1.mpr (by decide)
  · exact (claim_C1_classify_dangerous_iff_nodup
      (fun _ _ => (0 : ℚ))
      ⟨[(1, ⟨0, 0⟩), (2, ⟨1, 0⟩)], [⟨1, 2, 0, 100⟩]⟩
      [⟨0, 0, 5, 2⟩] 3 (1, 2, 0)).2

/-- C2: for data-model hazard levels (≥ 1), every recorded entry of
`edge_hazard_levels` is the maximum level among the above-threshold hazards
whose zone intersects that edge by the §4.2 distance test, and the recorded
value is invariant under permutation of the input hazard sequence. -/
theorem claim_C2_edgeLevels_max_perm (d : Coordinate → Coordinate → ℚ)
    (g : Graph) (hs hs' : List HazardZone) (t : ℤ)
    (hlev : ∀ h ∈ hs, 1 ≤ h.level) (hperm : hs.Perm hs') (y : EdgeId) :
    lookupLevel (identify_dangerous_edges d g hs t).levels y =
        lookupLevel (identify_dangerous_edges d g hs' t).levels y
      ∧ ∀ m, lookupLevel (identify_dangerous_edges d g hs t).levels y = some m →
          m ∈ qualifyingLevels d g t hs y ∧
            ∀ l ∈ qualifyingLevels d g t hs y, l ≤ m := by
  have hp : (qualifyingLevels d g t hs y).Perm (qualifyingLevels d g t hs' y) :=
    (hperm.filter _).map _
  constructor
  · rw [lookupLevel_identify, lookupLevel_identify, applyQ_none_eq,
      applyQ_none_eq]
    by_cases hnil : qualifyingLevels d g t hs y = []
    · rw [if_pos hnil, if_pos (List.Perm.eq_nil (hnil ▸ hp.symm))]
    · rw [if_neg hnil,
        if_neg (fun hc : qualifyingLevels d g t hs' y = [] =>
          hnil (List.Perm.eq_nil (hc ▸ hp))),
        foldl_max_perm hp]
  · intro m hm
    rw [lookupLevel_identify, applyQ_none_eq] at hm
    by_cases hnil : qualifyingLevels d g t hs y = []
    · rw [if_pos hnil] at hm
      exact absurd hm (Option.noConfusion)
    · rw [if_neg hnil] at hm
      have hm' : (qualifyingLevels d g t hs y).foldl max 0 = m :=
        Option.some.inj hm
      constructor
      · rcases foldl_max_mem_or (qualifyingLevels d g t hs y) 0 with hz | hmem
        · exfalso
          obtain ⟨l, hl⟩ := List.exists_mem_of_ne_nil _ hnil
          obtain ⟨h, hh, rfl, -, -⟩ := mem_qualifyingLevels d g t hs y l hl
          have h1 : (1 : ℤ) ≤ h.level := hlev h hh
          have hle : h.level ≤ (qualifyingLevels d g t hs y).foldl max 0 :=
            foldl_max_mem_le _ 0 h.level hl
          rw [hz] at hle
          omega
        · exact hm' ▸ hmem
      · intro l hl
        exact hm' ▸ foldl_max_mem_le _ 0 l hl

/-- C2 witness: Scenario D of the specification — two overlapping hazards of
levels 4 and 7 over one edge, threshold 3.  The recorded level is 7 and is
unchanged when the two hazards are given in the opposite order. -/
theorem claim_C2_witness :
    lookupLevel (identify_dangerous_edges
        (fun _ _ => (0 : ℚ))
        ⟨[(1, ⟨0, 0⟩), (2, ⟨1, 0⟩)], [⟨1, 2, 0, 100⟩]⟩
        [⟨0, 0, 4, 2⟩, ⟨0, 0, 7, 2⟩] 3).levels (1, 2, 0) =
      lookupLevel (identify_dangerous_edges
        (fun _ _ => (0 : ℚ))
        ⟨[(1, ⟨0, 0⟩), (2, ⟨1, 0⟩)], [⟨1, 2, 0, 100⟩]⟩
        [⟨0, 0, 7, 2⟩, ⟨0, 0, 4, 2⟩] 3).levels (1, 2, 0)
    ∧ lookupLevel (identify_dangerous_edges
        (fun _ _ => (0 : ℚ))
        ⟨[(1, ⟨0, 0⟩), (2, ⟨1, 0⟩)], [⟨1, 2, 0, 100⟩]⟩
        [⟨0, 0, 4, 2⟩, ⟨0, 0, 7, 2⟩] 3).levels (1, 2, 0) = some 7 :=
  ⟨(claim_C2_edgeLevels_max_perm
      (fun _ _ => (0 : ℚ))
      ⟨[(1, ⟨0, 0⟩), (2, ⟨1, 0⟩)], [⟨1, 2, 0, 100⟩]⟩
      [⟨0, 0, 4, 2⟩, ⟨0, 0, 7, 2⟩] [⟨0, 0, 7, 2⟩, ⟨0, 0, 4, 2⟩] 3
      (by decide) (by decide) (1, 2, 0)).1,
    by decide⟩

/-- C9: hazards at or below the threshold contribute nothing — filtering them
out of the input leaves the entire result (dangerous list, level map and
stats) unchanged — and raising the threshold never enlarges the dangerous
set. -/
theorem claim_C9_threshold_filter_monotone (d : Coordinate → Coordinate → ℚ)
    (g : Graph) (hs : List HazardZone) (t : ℤ) :
    identify_dangerous_edges d g (hs.filter fun h => decide (t < h.level)) t =
        identify_dangerous_edges d g hs t
      ∧ ∀ t₁ t₂ : ℤ, t₁ ≤ t₂ → ∀ y : EdgeId,
          y ∈ (identify_dangerous_edges d g hs t₂).dangerous →
            y ∈ (identify_dangerous_edges d g hs t₁).dangerous := by
  constructor
  · rw [identify_dangerous_edges, identify_dangerous_edges,
      foldl_processHazard_filter]
  · intro t₁ t₂ h12 y hy
    rw [mem_dangerous_iff] at hy ⊢
    obtain ⟨h, hh, hlt, hex⟩ := hy
    exact ⟨h, hh, lt_of_le_of_lt h12 hlt, hex⟩

/-- C9 witness: with one level-5 hazard covering a one-edge graph, filtering
out below-threshold hazards changes nothing, and the edge dangerous at
threshold 4 is also dangerous at the lower threshold 3. -/
theorem claim_C9_witness :
    (3 : ℤ) ≤ 4
      ∧ (1, 2, 0) ∈ (identify_dangerous_edges
          (fun _ _ => (0 : ℚ))
          ⟨[(1, ⟨0, 0⟩), (2, ⟨1, 0⟩)], [⟨1, 2, 0, 100⟩]⟩
          [⟨0, 0, 5, 2⟩] 4).dangerous
      ∧ (1, 2, 0) ∈ (identify_dangerous_edges
          (fun _ _ => (0 : ℚ))
          ⟨[(1, ⟨0, 0⟩), (2, ⟨1, 0⟩)], [⟨1, 2, 0, 100⟩]⟩
          [⟨0, 0, 5, 2⟩] 3).dangerous :=
  ⟨by decide, by decide,
    (claim_C9_threshold_filter_monotone
      (fun _ _ => (0 : ℚ))
      ⟨[(1, ⟨0, 0⟩), (2, ⟨1, 0⟩)], [⟨1, 2, 0, 100⟩]⟩
      [⟨0, 0, 5, 2⟩] 3).2 3 4 (by decide) (1, 2, 0) (by decide)⟩

/-- C10: the dangerous identifiers are exactly the keys of the level map, and
every recorded level is strictly above the threshold. -/
theorem claim_C10_dangerous_eq_keys (d : Coordinate → Coordinate → ℚ)
    (g : Graph) (hs : List HazardZone) (t : ℤ) (y : EdgeId) :
    (y ∈ (identify_dangerous_edges d g hs t).dangerous ↔
        (lookupLevel (identify_dangerous_edges d g hs t).levels y).isSome = true)
      ∧ ∀ m, lookupLevel (identify_dangerous_edges d g hs t).levels y = some m →
          t < m := by
  constructor
  · rw [mem_dangerous_iff, lookupLevel_identify, applyQ_none_eq]
    by_cases hnil : qualifyingLevels d g t hs y = []
    · rw [if_pos hnil]
      simp only [Option.isSome_none, Bool.false_eq_true, iff_false]
      rw [← qualifyingLevels_ne_nil_iff d g t hs y]
      exact fun hc => hc hnil
    · rw [if_neg hnil]
      simp only [Option.isSome_some, iff_true]
      exact (qualifyingLevels_ne_nil_iff d g t hs y).mp hnil
  · intro m hm
    rw [lookupLevel_identify, applyQ_none_eq] at hm
    by_cases hnil : qualifyingLevels d g t hs y = []
    · rw [if_pos hnil] at hm
      exact absurd hm (Option.noConfusion)
    · rw [if_neg hnil] at hm
      obtain ⟨l, hl⟩ := List.exists_mem_of_ne_nil _ hnil
      obtain ⟨h, -, rfl, hlt, -⟩ := mem_qualifyingLevels d g t hs y l hl
      have hle : h.level ≤ (qualifyingLevels d g t hs y).foldl max 0 :=
        foldl_max_mem_le _ 0 h.level hl
      rw [Option.some.inj hm] at hle
      exact lt_of_lt_of_le hlt hle

/-- C10 witness: on the Scenario D configuration the flagged edge has a level
entry of 7, strictly above the threshold 3, and membership in the dangerous
list coincides with the level map having a key for it. -/
theorem claim_C10_witness :
    lookupLevel (identify_dangerous_edges
        (fun _ _ => (0 : ℚ))
        ⟨[(1, ⟨0, 0⟩), (2, ⟨1, 0⟩)], [⟨1, 2, 0, 100⟩]⟩
        [⟨0, 0, 4, 2⟩, ⟨0, 0, 7, 2⟩] 3).levels (1, 2, 0) = some 7
      ∧ (3 : ℤ) < 7 :=
  ⟨by decide,
    (claim_C10_dangerous_eq_keys
      (fun _ _ => (0 : ℚ))
      ⟨[(1, ⟨0, 0⟩), (2, ⟨1, 0⟩)], [⟨1, 2, 0, 100⟩]⟩
      [⟨0, 0, 4, 2⟩, ⟨0, 0, 7, 2⟩] 3 (1, 2, 0)).2 7 (by decide)⟩

/-- An edge instance with this identifier is present:
`safe_graph.has_edge(u, v, key)`. -/
def hasEdgeId (g : Graph) (x : EdgeId) : Prop := ∃ e ∈ g.edges, e.id = x

instance (g x) : Decidable (hasEdgeId g x) := by
  unfold hasEdgeId; infer_instance

/-- `safe_graph.remove_edge(u, v, key)`: drops the edge instance with this
identifier.  In a networkx multigraph the `(u, v, key)` triple addresses at
most one edge, so removing every match is removing that one instance. -/
def removeEdgeId (g : Graph) (x : EdgeId) : Graph :=
  { g with edges := g.edges.filter fun e => decide (e.id ≠ x) }

/-- A vertex has an incident edge in either direction (the negation of
`networkx.isolates` membership; an isolate has degree 0). -/
def hasIncident (g : Graph) (n : ℕ) : Prop := ∃ e ∈ g.edges, e.u = n ∨ e.v = n

instance (g n) : Decidable (hasIncident g n) := by
  unfold hasIncident; infer_instance

/-- Object state during `create_safe_graph`: the caller's graph object and
the private working copy `safe_graph`, with the `removed_count` counter.
Embedding the two Python references as two fields makes the frame property
(the caller's object is never mutated) expressible. -/
structure PruneRun where
  caller : Graph
  safe : Graph
  removed : ℕ
deriving DecidableEq

/-- `safe_graph = graph.copy(); removed_count = 0`. -/
def pruneInit (g : Graph) : PruneRun := ⟨g, g, 0⟩

/-- One iteration of the removal loop: `if safe_graph.has_edge(u, v, key):
safe_graph.remove_edge(u, v, key); removed_count += 1`. -/
def pruneRemove (s : PruneRun) (x : EdgeId) : PruneRun :=
  if hasEdgeId s.safe x then
    { s with safe := removeEdgeId s.safe x, removed := s.removed + 1 }
  else s

/-- `safe_graph.remove_nodes_from(nx.isolates(safe_graph))`: drop every
vertex with no incident edge (such a vertex has no incident edges to cascade,
so only the node list changes). -/
def pruneIsolates (s : PruneRun) : PruneRun :=
  { s with
    safe :=
      { s.safe with
        nodes := s.safe.nodes.filter fun n => decide (hasIncident s.safe n.1) } }

/-- The full `create_safe_graph` run over the two-object state. -/
def pruneRunAll (g : Graph) (ids : List EdgeId) : PruneRun :=
  pruneIsolates (ids.foldl pruneRemove (pruneInit g))

/-- `create_safe_graph(graph, dangerous_edges)` (`routing_service.py:94`,
`main.py:144`): the pruned graph and the count of edges actually removed. -/
def create_safe_graph (g : Graph) (ids : List EdgeId) : Graph × ℕ :=
  ((pruneRunAll g ids).safe, (pruneRunAll g ids).removed)

theorem pruneRemove_caller (s : PruneRun) (x : EdgeId) :
    (pruneRemove s x).caller = s.caller := by
  rw [pruneRemove]; split <;> rfl

theorem foldl_pruneRemove_caller :
    ∀ (ids : List EdgeId) (s : PruneRun),
      (ids.foldl pruneRemove s).caller = s.caller := by
  intro ids
  induction ids with
  | nil => intro s; rfl
  | cons x ids ih =>
      intro s
      rw [List.foldl_cons, ih, pruneRemove_caller]

theorem pruneRemove_edges_subset (s : PruneRun) (x : EdgeId) :
    (pruneRemove s x).safe.edges ⊆ s.safe.edges := by
  rw [pruneRemove]
  split
  · exact (List.filter_sublist _).subset
  · exact fun _ h => h

theorem foldl_pruneRemove_edges_subset :
    ∀ (ids : List EdgeId) (s : PruneRun),
      (ids.foldl pruneRemove s).safe.edges ⊆ s.safe.edges := by
  intro ids
  induction ids with
  | nil => intro s e he; exact he
  | cons x ids ih =>
      intro s e he
      exact pruneRemove_edges_subset s x (ih (pruneRemove s x) he)

theorem not_hasEdgeId_mono {g g' : Graph} (hsub : g'.edges ⊆ g.edges)
    {x : EdgeId} (hx : ¬ hasEdgeId g x) : ¬ hasEdgeId g' x := by
  rintro ⟨e, he, rfl⟩
  exact hx ⟨e, hsub he, rfl⟩

theorem not_hasEdgeId_removeEdgeId (g : Graph) (x : EdgeId) :
    ¬ hasEdgeId (removeEdgeId g x) x := by
  rintro ⟨e, he, rfl⟩
  have := List.of_mem_filter he
  simp only [decide_eq_true_eq] at this
  exact this rfl

theorem not_hasEdgeId_pruneRemove (s : PruneRun) (x : EdgeId) :
    ¬ hasEdgeId (pruneRemove s x).safe x := by
  rw [pruneRemove]
  split
  · exact not_hasEdgeId_removeEdgeId s.safe x
  · rename_i hn
    exact hn

theorem foldl_pruneRemove_absent :
    ∀ (ids : List EdgeId) (s : PruneRun) (x : EdgeId), x ∈ ids →
      ¬ hasEdgeId (ids.foldl pruneRemove s).safe x := by
  intro ids
  induction ids with
  | nil => intro s x hx; exact absurd hx (List.not_mem_nil x)
  | cons y ids ih =>
      intro s x hx
      rw [List.foldl_cons]
      rcases List.mem_cons.mp hx with rfl | hx
      · exact not_hasEdgeId_mono
          (foldl_pruneRemove_edges_subset ids (pruneRemove s x))
          (not_hasEdgeId_pruneRemove s x)
      · exact ih (pruneRemove s y) x hx

theorem foldl_pruneRemove_of_absent :
    ∀ (ids : List EdgeId) (s : PruneRun),
      (∀ x ∈ ids, ¬ hasEdgeId s.safe x) → ids.foldl pruneRemove s = s := by
  intro ids
  induction ids with
  | nil => intro s _; rfl
  | cons x ids ih =>
      intro s habs
      rw [List.foldl_cons, pruneRemove,
        if_neg (habs x (List.mem_cons_self x ids))]
      exact ih s fun y hy => habs y (List.mem_cons_of_mem x hy)

theorem foldl_pruneRemove_removed_le :
    ∀ (ids : List EdgeId) (s : PruneRun),
      (ids.foldl pruneRemove s).removed ≤ s.removed + ids.length := by
  intro ids
  induction ids with
  | nil => intro s; simp
  | cons x ids ih =>
      intro s
      rw [List.foldl_cons]
      refine le_trans (ih (pruneRemove s x)) ?_
      have hstep : (pruneRemove s x).removed ≤ s.removed + 1 := by
        rw [pruneRemove]
        split
        · exact le_refl _
        · exact Nat.le_succ _
      calc (pruneRemove s x).removed + ids.length
          ≤ s.removed + 1 + ids.length := Nat.add_le_add_right hstep _
        _ = s.removed + (x :: ids).length := by
            rw [List.length_cons]; omega

/-- C7: `create_safe_graph` never mutates the caller's graph: every edge and
vertex removal is performed on the private copy made at the start, and the
caller's object after the whole run is exactly the input graph. -/
theorem claim_C7_caller_unchanged (g : Graph) (ids : List EdgeId) :
    (pruneRunAll g ids).caller = g := by
  rw [pruneRunAll]
  have hiso : ∀ s : PruneRun, (pruneIsolates s).caller = s.caller :=
    fun s => rfl
  rw [hiso, foldl_pruneRemove_caller]
  rfl

/-- C7 witness: a concrete run leaves the caller's graph untouched. -/
theorem claim_C7_witness :
    (pruneRunAll ⟨[(1, ⟨0, 0⟩), (2, ⟨1, 0⟩)], [⟨1, 2, 0, 100⟩]⟩
        [(1, 2, 0)]).caller =
      ⟨[(1, ⟨0, 0⟩), (2, ⟨1, 0⟩)], [⟨1, 2, 0, 100⟩]⟩ :=
  claim_C7_caller_unchanged ⟨[(1, ⟨0, 0⟩), (2, ⟨1, 0⟩)], [⟨1, 2, 0, 100⟩]⟩
    [(1, 2, 0)]

/-- C6: every vertex surviving `create_safe_graph` has at least one incident
edge (in either direction) in the pruned graph; no isolated vertex survives. -/
theorem claim_C6_no_isolated (g : Graph) (ids : List EdgeId)
    (n : ℕ × Coordinate) (hn : n ∈ (create_safe_graph g ids).1.nodes) :
    ∃ e ∈ (create_safe_graph g ids).1.edges, e.u = n.1 ∨ e.v = n.1 := by
  rw [create_safe_graph, pruneRunAll] at hn ⊢
  have hmem := List.mem_filter.mp hn
  have hinc : hasIncident (ids.foldl pruneRemove (pruneInit g)).safe n.1 := by
    have := hmem.2
    simpa using this
  exact hinc

/-- C6 witness: in a concrete graph with an isolated third vertex, the
surviving vertex 1 has an incident edge after pruning with an empty
dangerous list. -/
theorem claim_C6_witness :
    (1, (⟨0, 0⟩ : Coordinate)) ∈
        (create_safe_graph
          ⟨[(1, ⟨0, 0⟩), (2, ⟨1, 0⟩), (3, ⟨2, 0⟩)], [⟨1, 2, 0, 100⟩]⟩
          []).1.nodes
      ∧ ∃ e ∈ (create_safe_graph
          ⟨[(1, ⟨0, 0⟩), (2, ⟨1, 0⟩), (3, ⟨2, 0⟩)], [⟨1, 2, 0, 100⟩]⟩
          []).1.edges, e.u = 1 ∨ e.v = 1 :=
  ⟨by decide,
    claim_C6_no_isolated
      ⟨[(1, ⟨0, 0⟩), (2, ⟨1, 0⟩), (3, ⟨2, 0⟩)], [⟨1, 2, 0, 100⟩]⟩
      [] (1, ⟨0, 0⟩) (by decide)⟩

/-- C8: pruning is idempotent for a fixed dangerous-edge list — a second
application removes zero additional edges — a listed identifier absent from
the graph is a no-op rather than an error, and the removed count never
exceeds the number of listed identifiers. -/
theorem claim_C8_prune_idempotent (g : Graph) (ids : List EdgeId) :
    (create_safe_graph (create_safe_graph g ids).1 ids).2 = 0
      ∧ (create_safe_graph g ids).2 ≤ ids.length
      ∧ ∀ (ids₁ ids₂ : List EdgeId) (x : EdgeId), ¬ hasEdgeId g x →
          create_safe_graph g (ids₁ ++ x :: ids₂) =
            create_safe_graph g (ids₁ ++ ids₂) := by
  refine ⟨?_, ?_, ?_⟩
  · have habs : ∀ x ∈ ids, ¬ hasEdgeId (create_safe_graph g ids).1 x := by
      intro x hx
      have h1 : ¬ hasEdgeId (ids.foldl pruneRemove (pruneInit g)).safe x :=
        foldl_pruneRemove_absent ids (pruneInit g) x hx
      rintro ⟨e, he, rfl⟩
      exact h1 ⟨e, he, rfl⟩
    rw [create_safe_graph, pruneRunAll,
      foldl_pruneRemove_of_absent ids (pruneInit (create_safe_graph g ids).1)
        habs]
    rfl
  · rw [create_safe_graph, pruneRunAll]
    have : ((ids.foldl pruneRemove (pruneInit g))).removed ≤ 0 + ids.length :=
      foldl_pruneRemove_removed_le ids (pruneInit g)
    simpa using this
  · intro ids₁ ids₂ x hx
    rw [create_safe_graph, create_safe_graph, pruneRunAll, pruneRunAll,
      List.foldl_append, List.foldl_append, List.foldl_cons, pruneRemove,
      if_neg (not_hasEdgeId_mono
        (foldl_pruneRemove_edges_subset ids₁ (pruneInit g)) hx)]

/-- C8 witness: concrete checks — the second application of pruning removes
nothing, the removed count is within the list length, and pruning with a
stale identifier equals pruning without it. -/
theorem claim_C8_witness :
    (create_safe_graph
          (create_safe_graph ⟨[(1, ⟨0, 0⟩), (2, ⟨1, 0⟩)], [⟨1, 2, 0, 100⟩]⟩
            [(1, 2, 0)]).1 [(1, 2, 0)]).2 = 0
      ∧ (create_safe_graph ⟨[(1, ⟨0, 0⟩), (2, ⟨1, 0⟩)], [⟨1, 2, 0, 100⟩]⟩
          [(1, 2, 0)]).2 ≤ 1
      ∧ ¬ hasEdgeId ⟨[(1, ⟨0, 0⟩), (2, ⟨1, 0⟩)], [⟨1, 2, 0, 100⟩]⟩ (9, 9, 9)
      ∧ create_safe_graph ⟨[(1, ⟨0, 0⟩), (2, ⟨1, 0⟩)], [⟨1, 2, 0, 100⟩]⟩
          [(9, 9, 9)] =
        create_safe_graph ⟨[(1, ⟨0, 0⟩), (2, ⟨1, 0⟩)], [⟨1, 2, 0, 100⟩]⟩ [] :=
  ⟨(claim_C8_prune_idempotent
      ⟨[(1, ⟨0, 0⟩), (2, ⟨1, 0⟩)], [⟨1, 2, 0, 100⟩]⟩ [(1, 2, 0)]).1,
    (claim_C8_prune_idempotent
      ⟨[(1, ⟨0, 0⟩), (2, ⟨1, 0⟩)], [⟨1, 2, 0, 100⟩]⟩ [(1, 2, 0)]).2.1,
    by decide,
    (claim_C8_prune_idempotent
      ⟨[(1, ⟨0, 0⟩), (2, ⟨1, 0⟩)], [⟨1, 2, 0, 100⟩]⟩ [(1, 2, 0)]).2.2
      [] [] (9, 9, 9) (by decide)⟩

/-- Vertex identifiers of the graph (`graph.nodes`). -/
def nodeIds (g : Graph) : List ℕ := g.nodes.map Prod.fst

/-- One step of the scan for the vertex nearest to coordinate `c`; ties keep
the earlier vertex, a deterministic tie-break. -/
def nearestFold (d : Coordinate → Coordinate → ℚ) (c : Coordinate)
    (best : Option (ℕ × Coordinate)) (p : ℕ × Coordinate) :
    Option (ℕ × Coordinate) :=
  match best with
  | none => some p
  | some b => if d c p.2 < d c b.2 then some p else some b

/-- Modelled from the spec: `ox.distance.nearest_nodes(graph, X, Y)` is
external (osmnx); §4.4 step 1 specifies it as snapping to the geometrically
nearest vertex of the given graph over all its vertices, with a
deterministic tie-break.  Returns `none` exactly when the graph has no
vertices (the library raises there, which `calculate_safe_route` does not
catch as a typed failure). -/
def nearest_nodes (d : Coordinate → Coordinate → ℚ) (g : Graph)
    (c : Coordinate) : Option ℕ :=
  (g.nodes.foldl (nearestFold d c) none).map Prod.fst

/-- There is a directed edge instance from `a` to `b`. -/
def Adj (g : Graph) (a b : ℕ) : Prop := ∃ e ∈ g.edges, e.u = a ∧ e.v = b

instance (g a b) : Decidable (Adj g a b) := by
  unfold Adj; infer_instance

/-- A directed path connects `a` to `b` (reflexive-transitive closure of the
edge relation). -/
def Reachable (g : Graph) (a b : ℕ) : Prop :=
  Relation.ReflTransGen (Adj g) a b

/-- Lookup in a table of (vertex, path-to-vertex) entries. -/
def lk : List (ℕ × List ℕ) → ℕ → Option (List ℕ)
  | [], _ => none
  | (k, p) :: rest, n => if k = n then some p else lk rest n

/-- Relax one edge: if the source vertex already has a recorded path and the
target does not, record the extended path for the target. -/
def relaxEdge (tbl : List (ℕ × List ℕ)) (e : Edge) : List (ℕ × List ℕ) :=
  match lk tbl e.u with
  | some p =>
      match lk tbl e.v with
      | some _ => tbl
      | none => tbl ++ [(e.v, p ++ [e.v])]
  | none => tbl

/-- Relax every edge of the graph once. -/
def relaxStep (g : Graph) (tbl : List (ℕ × List ℕ)) : List (ℕ × List ℕ) :=
  g.edges.foldl relaxEdge tbl

/-- Saturated reachability table from `s`: enough relaxation rounds that the
table is a fixpoint (at most one new vertex per round, at most
`edges.length + 1` table entries). -/
def reachTable (g : Graph) (s : ℕ) : List (ℕ × List ℕ) :=
  (relaxStep g)^[g.edges.length + 1] [(s, [s])]

/-- Modelled from the spec: `nx.astar_path(graph, start, end, heuristic,
weight)` is external (networkx); §4.4 step 3 specifies it as a
heuristic-guided shortest-path search that yields a vertex path from start
to goal precisely when one exists and fails with `NetworkXNoPath` otherwise.
The claims under verification depend only on that contract — which path is
returned and in which cost order vertices are expanded is not observable in
them — so a reachability-based path construction stands in; its soundness
(returned lists are directed paths) and completeness (a path is returned
whenever one exists) are proved below. -/
def astar_path (g : Graph) (s t : ℕ) : Option (List ℕ) :=
  lk (reachTable g s) t

/-- Typed outcomes of `calculate_safe_route`.  `blockedEndpoint` is the
HTTP-400 "Start or end point is in a blocked area" failure, `noPath` the
HTTP-404 "No safe route exists" failure; `snapFailure` and `keyError` model
the untyped Python exceptions that escape the function (a nearest-node
lookup failing on a vertexless graph, and `graph[u][v][0]` raising
`KeyError` when no parallel edge with key 0 exists). -/
inductive RouteError where
  | blockedEndpoint
  | noPath
  | snapFailure
  | keyError
deriving DecidableEq

/-- Consecutive vertex pairs of a path:
`(route[i], route[i+1]) for i in range(len(route) - 1)`. -/
def consPairs : List ℕ → List (ℕ × ℕ)
  | a :: b :: rest => (a, b) :: consPairs (b :: rest)
  | _ => []

/-- All parallel edge instances from `u` to `v` (`graph[u][v]`, empty when
`graph.has_edge(u, v)` is false). -/
def edgesBetween (g : Graph) (u v : ℕ) : List Edge :=
  g.edges.filter fun e => decide (e.u = u ∧ e.v = v)

/-- The parallel edge keyed `k` between `u` and `v` (`graph[u][v][k]`),
if present. -/
def findEdgeKey (g : Graph) (u v k : ℕ) : Option Edge :=
  (edgesBetween g u v).find? fun e => decide (e.key = k)

/-- The summation loop of `calculate_safe_route`: for each consecutive pair,
if any edge is present, read `graph[u][v][0]` — the parallel edge keyed 0 —
and add its `length` attribute (always present in the model, so the
`.get('length', 0)` default is never taken); a missing key 0 raises
`KeyError`. -/
def routeTotalGo (g : Graph) (acc : ℚ) :
    List (ℕ × ℕ) → Except RouteError ℚ
  | [] => .ok acc
  | uv :: rest =>
      if edgesBetween g uv.1 uv.2 = [] then routeTotalGo g acc rest
      else
        match findEdgeKey g uv.1 uv.2 0 with
        | some e => routeTotalGo g (acc + e.length) rest
        | none => .error .keyError

/-- `total_distance` computed over a returned route, starting from 0. -/
def routeTotal (g : Graph) (route : List ℕ) : Except RouteError ℚ :=
  routeTotalGo g 0 (consPairs route)

/-- Specification-side sum: the stored `length` of the key-0 edge instance of
each consecutive pair (0 for a pair with no edge; the route search traverses
edges, so on returned routes every pair has one). -/
def pathLengthSum (g : Graph) (route : List ℕ) : ℚ :=
  ((consPairs route).map fun uv =>
    ((findEdgeKey g uv.1 uv.2 0).map Edge.length).getD 0).sum

/-- The inner `heuristic(u, v)` function of `calculate_safe_route`
(`routing_service.py:134`, `main.py:172`): `geodesic(coords).km`, i.e. the
meter-valued geodesic distance divided by exactly 1000. -/
def heuristic (d : Coordinate → Coordinate → ℚ) (g : Graph) (u v : ℕ) : ℚ :=
  d (nodeCoord g u) (nodeCoord g v) / 1000

/-- `calculate_safe_route(graph, start_coord, end_coord)`
(`routing_service.py:110`, `main.py:160`): snap both endpoints to the
nearest vertex of the given (pruned) graph, fail with the blocked-endpoint
error if a snapped vertex is not among the graph's vertices, run the path
search, fail with the no-path error if it finds none, and otherwise sum the
key-0 edge lengths along the returned route. -/
def calculate_safe_route (d : Coordinate → Coordinate → ℚ) (g : Graph)
    (a b : Coordinate) : Except RouteError (List ℕ × ℚ) :=
  match nearest_nodes d g a, nearest_nodes d g b with
  | some sn, some en =>
      if sn ∈ nodeIds g ∧ en ∈ nodeIds g then
        match astar_path g sn en with
        | some route =>
            match routeTotal g route with
            | .ok total => .ok (route, total)
            | .error err => .error err
        | none => .error .noPath
      else .error .blockedEndpoint
  | _, _ => .error .snapFailure

/-- A nonempty vertex list is a directed path from `a` to `b`. -/
def IsPathFrom (g : Graph) (a b : ℕ) (p : List ℕ) : Prop :=
  p.head? = some a ∧ p.getLast? = some b ∧ List.Chain' (Adj g) p

theorem lk_append_of_some {tbl : List (ℕ × List ℕ)} {n : ℕ} {p : List ℕ}
    (h : lk tbl n = some p) (r : List (ℕ × List ℕ)) :
    lk (tbl ++ r) n = some p := by
  induction tbl with
  | nil => exact absurd h (by simp [lk])
  | cons kp rest ih =>
      obtain ⟨k, q⟩ := kp
      rw [List.cons_append, lk]
      rw [lk] at h
      by_cases hk : k = n
      · rw [if_pos hk] at h ⊢; exact h
      · rw [if_neg hk] at h ⊢; exact ih h

theorem lk_ne_none_append {tbl : List (ℕ × List ℕ)} {n : ℕ}
    (h : lk tbl n ≠ none) (r : List (ℕ × List ℕ)) :
    lk (tbl ++ r) n ≠ none := by
  cases hl : lk tbl n with
  | none => exact absurd hl h
  | some p => rw [lk_append_of_some hl r]; exact Option.noConfusion

theorem lk_none_iff (tbl : List (ℕ × List ℕ)) (n : ℕ) :
    lk tbl n = none ↔ n ∉ tbl.map Prod.fst := by
  induction tbl with
  | nil => simp [lk]
  | cons kp rest ih =>
      obtain ⟨k, q⟩ := kp
      rw [lk]
      by_cases hk : k = n
      · subst hk
        simp
      · rw [if_neg hk, ih, List.map_cons]
        simp [Ne.symm hk]

theorem lk_mem {tbl : List (ℕ × List ℕ)} {n : ℕ} {p : List ℕ}
    (h : lk tbl n = some p) : (n, p) ∈ tbl := by
  induction tbl with
  | nil => exact absurd h (by simp [lk])
  | cons kp rest ih =>
      obtain ⟨k, q⟩ := kp
      rw [lk] at h
      by_cases hk : k = n
      · subst hk
        rw [if_pos rfl] at h
        rw [Option.some.inj h]
        exact List.mem_cons_self _ _
      · rw [if_neg hk] at h
        exact List.mem_cons_of_mem _ (ih h)

theorem lk_append_single_self {tbl : List (ℕ × List ℕ)} {n : ℕ}
    (h : lk tbl n = none) (p : List ℕ) :
    lk (tbl ++ [(n, p)]) n = some p := by
  induction tbl with
  | nil => simp [lk]
  | cons kp rest ih =>
      obtain ⟨k, q⟩ := kp
      rw [lk] at h
      by_cases hk : k = n
      · rw [if_pos hk] at h
        exact absurd h Option.noConfusion
      · rw [if_neg hk] at h
        rw [List.cons_append, lk, if_neg hk]
        exact ih h

theorem relaxEdge_append (tbl : List (ℕ × List ℕ)) (e : Edge) :
    ∃ r, relaxEdge tbl e = tbl ++ r := by
  cases hu : lk tbl e.u with
  | none => exact ⟨[], by rw [relaxEdge, hu, List.append_nil]⟩
  | some p =>
      cases hv : lk tbl e.v with
      | none => exact ⟨[(e.v, p ++ [e.v])], by rw [relaxEdge, hu, hv]⟩
      | some q => exact ⟨[], by rw [relaxEdge, hu, hv, List.append_nil]⟩

theorem foldl_relaxEdge_append :
    ∀ (es : List Edge) (tbl : List (ℕ × List ℕ)),
      ∃ r, es.foldl relaxEdge tbl = tbl ++ r := by
  intro es
  induction es with
  | nil => exact fun tbl => ⟨[], by rw [List.foldl_nil, List.append_nil]⟩
  | cons e es ih =>
      intro tbl
      obtain ⟨r₁, hr₁⟩ := relaxEdge_append tbl e
      obtain ⟨r₂, hr₂⟩ := ih (relaxEdge tbl e)
      exact ⟨r₁ ++ r₂, by rw [List.foldl_cons, hr₂, hr₁, List.append_assoc]⟩

theorem relaxStep_append (g : Graph) (tbl : List (ℕ × List ℕ)) :
    ∃ r, relaxStep g tbl = tbl ++ r :=
  foldl_relaxEdge_append g.edges tbl

theorem lk_ne_none_foldl (es : List Edge) (tbl : List (ℕ × List ℕ)) (n : ℕ)
    (h : lk tbl n ≠ none) : lk (es.foldl relaxEdge tbl) n ≠ none := by
  obtain ⟨r, hr⟩ := foldl_relaxEdge_append es tbl
  rw [hr]
  exact lk_ne_none_append h r

theorem lk_some_iterate (g : Graph) {tbl : List (ℕ × List ℕ)} {n : ℕ}
    {p : List ℕ} (h : lk tbl n = some p) :
    ∀ k, lk ((relaxStep g)^[k] tbl) n = some p := by
  intro k
  induction k with
  | zero => exact h
  | succ k ih =>
      rw [Function.iterate_succ_apply']
      obtain ⟨r, hr⟩ := relaxStep_append g ((relaxStep g)^[k] tbl)
      rw [hr]
      exact lk_append_of_some ih r

theorem lk_relaxEdge_target (tbl : List (ℕ × List ℕ)) (e : Edge)
    (hu : lk tbl e.u ≠ none) : lk (relaxEdge tbl e) e.v ≠ none := by
  cases hu' : lk tbl e.u with
  | none => exact absurd hu' hu
  | some p =>
      cases hv : lk tbl e.v with
      | none =>
          rw [relaxEdge, hu', hv, lk_append_single_self hv]
          exact Option.noConfusion
      | some q =>
          rw [relaxEdge, hu', hv, hv]
          exact Option.noConfusion

theorem lk_foldl_target :
    ∀ (es : List Edge) (tbl : List (ℕ × List ℕ)) (e : Edge), e ∈ es →
      lk tbl e.u ≠ none → lk (es.foldl relaxEdge tbl) e.v ≠ none := by
  intro es
  induction es with
  | nil => intro tbl e he; exact absurd he (List.not_mem_nil e)
  | cons e₀ es ih =>
      intro tbl e he hu
      rw [List.foldl_cons]
      rcases List.mem_cons.mp he with rfl | he
      · exact lk_ne_none_foldl es _ _ (lk_relaxEdge_target tbl e hu)
      · refine ih (relaxEdge tbl e₀) e he ?_
        obtain ⟨r, hr⟩ := relaxEdge_append tbl e₀
        rw [hr]
        exact lk_ne_none_append hu r

theorem relaxStep_fixpoint_closed (g : Graph) (tbl : List (ℕ × List ℕ))
    (hfix : relaxStep g tbl = tbl) (e : Edge) (he : e ∈ g.edges)
    (hu : lk tbl e.u ≠ none) : lk tbl e.v ≠ none := by
  have := lk_foldl_target g.edges tbl e he hu
  rw [relaxStep] at hfix
  rw [hfix] at this
  exact this

/-- Table-key invariant: keys are distinct and drawn from the start vertex
and edge targets. -/
def KeysOK (g : Graph) (s : ℕ) (tbl : List (ℕ × List ℕ)) : Prop :=
  (tbl.map Prod.fst).Nodup ∧ tbl.map Prod.fst ⊆ s :: g.edges.map Edge.v

theorem relaxEdge_keysOK (g : Graph) (s : ℕ) (tbl : List (ℕ × List ℕ))
    (e : Edge) (he : e ∈ g.edges) (hk : KeysOK g s tbl) :
    KeysOK g s (relaxEdge tbl e) := by
  cases hu : lk tbl e.u with
  | none => rw [relaxEdge, hu]; exact hk
  | some p =>
      cases hv : lk tbl e.v with
      | some q => rw [relaxEdge, hu, hv]; exact hk
      | none =>
          rw [relaxEdge, hu, hv]
          constructor
          · rw [List.map_append]
            rw [List.nodup_append]
            refine ⟨hk.1, List.nodup_singleton _, ?_⟩
            intro x hx hx'
            rw [List.map_singleton, List.mem_singleton] at hx'
            subst hx'
            exact ((lk_none_iff tbl e.v).mp hv) hx
          · rw [List.map_append]
            intro x hx
            rcases List.mem_append.mp hx with hx | hx
            · exact hk.2 hx
            · rw [List.map_singleton, List.mem_singleton] at hx
              subst hx
              exact List.mem_cons_of_mem s (List.mem_map_of_mem Edge.v he)

theorem foldl_relaxEdge_keysOK (g : Graph) (s : ℕ) :
    ∀ (es : List Edge), es ⊆ g.edges →
      ∀ (tbl : List (ℕ × List ℕ)), KeysOK g s tbl →
        KeysOK g s (es.foldl relaxEdge tbl) := by
  intro es
  induction es with
  | nil => intro _ tbl hk; exact hk
  | cons e es ih =>
      intro hsub tbl hk
      rw [List.foldl_cons]
      refine ih (fun x hx => hsub (List.mem_cons_of_mem e hx)) _ ?_
      exact relaxEdge_keysOK g s tbl e (hsub (List.mem_cons_self e es)) hk

theorem iterate_keysOK (g : Graph) (s : ℕ) (tbl : List (ℕ × List ℕ))
    (hk : KeysOK g s tbl) (k : ℕ) :
    KeysOK g s ((relaxStep g)^[k] tbl) := by
  induction k with
  | zero => exact hk
  | succ k ih =>
      rw [Function.iterate_succ_apply']
      exact foldl_relaxEdge_keysOK g s g.edges (fun x hx => hx) _ ih

theorem keysOK_length (g : Graph) (s : ℕ) (tbl : List (ℕ × List ℕ))
    (hk : KeysOK g s tbl) : tbl.length ≤ g.edges.length + 1 := by
  have hsub := (hk.1.subperm hk.2).length_le
  rw [List.length_map, List.length_cons, List.length_map] at hsub
  omega

theorem iterate_growth (g : Graph) :
    ∀ (k : ℕ) (tbl : List (ℕ × List ℕ)),
      relaxStep g ((relaxStep g)^[k] tbl) = (relaxStep g)^[k] tbl ∨
        tbl.length + k ≤ ((relaxStep g)^[k] tbl).length := by
  intro k
  induction k with
  | zero => intro tbl; right; simp
  | succ k ih =>
      intro tbl
      rcases ih tbl with hfix | hlen
      · left
        rw [Function.iterate_succ_apply', hfix]
        exact hfix
      · obtain ⟨r, hr⟩ := relaxStep_append g ((relaxStep g)^[k] tbl)
        cases r with
        | nil =>
            left
            have hfix : relaxStep g ((relaxStep g)^[k] tbl) =
                (relaxStep g)^[k] tbl := by
              rw [hr, List.append_nil]
            rw [Function.iterate_succ_apply', hfix]
            exact hfix
        | cons hd tl =>
            right
            rw [Function.iterate_succ_apply', hr, List.length_append,
              List.length_cons]
            omega

theorem reachTable_fixpoint (g : Graph) (s : ℕ) :
    relaxStep g (reachTable g s) = reachTable g s := by
  rw [reachTable]
  rcases iterate_growth g (g.edges.length + 1) [(s, [s])] with hfix | hlen
  · exact hfix
  · exfalso
    have hkeys : KeysOK g s ((relaxStep g)^[g.edges.length + 1] [(s, [s])]) := by
      refine iterate_keysOK g s [(s, [s])] ⟨List.nodup_singleton s, ?_⟩ _
      intro x hx
      rw [List.map_singleton, List.mem_singleton] at hx
      rw [hx]
      exact List.mem_cons_self s _
    have hb := keysOK_length g s _ hkeys
    rw [List.length_singleton] at hlen
    omega

theorem lk_reachTable_start (g : Graph) (s : ℕ) :
    lk (reachTable g s) s = some [s] := by
  rw [reachTable]
  exact lk_some_iterate g (by rw [lk, if_pos rfl]) _

theorem reachTable_complete (g : Graph) (s t : ℕ) (h : Reachable g s t) :
    lk (reachTable g s) t ≠ none := by
  induction h with
  | refl =>
      rw [lk_reachTable_start]
      exact Option.noConfusion
  | tail _ hbc ih =>
      obtain ⟨e, he, hu, hv⟩ := hbc
      subst hv
      exact relaxStep_fixpoint_closed g _ (reachTable_fixpoint g s) e he
        (hu ▸ ih)

/-- Table-path invariant: every entry records a directed path from `s`. -/
def PathsOK (g : Graph) (s : ℕ) (tbl : List (ℕ × List ℕ)) : Prop :=
  ∀ kp ∈ tbl, IsPathFrom g s kp.1 kp.2

theorem relaxEdge_pathsOK (g : Graph) (s : ℕ) (tbl : List (ℕ × List ℕ))
    (e : Edge) (he : e ∈ g.edges) (hp : PathsOK g s tbl) :
    PathsOK g s (relaxEdge tbl e) := by
  cases hu : lk tbl e.u with
  | none => rw [relaxEdge, hu]; exact hp
  | some p =>
      cases hv : lk tbl e.v with
      | some q => rw [relaxEdge, hu, hv]; exact hp
      | none =>
          rw [relaxEdge, hu, hv]
          intro kp hkp
          rcases List.mem_append.mp hkp with hkp | hkp
          · exact hp kp hkp
          · rw [List.mem_singleton] at hkp
            subst hkp
            have hpath := hp (e.u, p) (lk_mem hu)
            obtain ⟨hhead, hlast, hchain⟩ := hpath
            have hpne : p ≠ [] := by
              intro hc; rw [hc] at hhead; exact Option.noConfusion hhead
            refine ⟨?_, ?_, ?_⟩
            · rw [List.head?_append, hhead]
              rfl
            · exact List.getLast?_concat p
            · rw [List.chain'_append]
              refine ⟨hchain, List.chain'_singleton _, ?_⟩
              intro x hx y hy
              rw [List.head?_cons, Option.mem_def, Option.some.injEq] at hy
              subst hy
              rw [hlast, Option.mem_def, Option.some.injEq] at hx
              subst hx
              exact ⟨e, he, rfl, rfl⟩

theorem foldl_relaxEdge_pathsOK (g : Graph) (s : ℕ) :
    ∀ (es : List Edge), es ⊆ g.edges →
      ∀ (tbl : List (ℕ × List ℕ)), PathsOK g s tbl →
        PathsOK g s (es.foldl relaxEdge tbl) := by
  intro es
  induction es with
  | nil => intro _ tbl hp; exact hp
  | cons e es ih =>
      intro hsub tbl hp
      rw [List.foldl_cons]
      refine ih (fun x hx => hsub (List.mem_cons_of_mem e hx)) _ ?_
      exact relaxEdge_pathsOK g s tbl e (hsub (List.mem_cons_self e es)) hp

theorem reachTable_pathsOK (g : Graph) (s : ℕ) :
    PathsOK g s (reachTable g s) := by
  rw [reachTable]
  generalize g.edges.length + 1 = k
  induction k with
  | zero =>
      intro kp hkp
      rw [Function.iterate_zero_apply, List.mem_singleton] at hkp
      subst hkp
      exact ⟨rfl, rfl, List.chain'_singleton s⟩
  | succ k ih =>
      rw [Function.iterate_succ_apply']
      exact foldl_relaxEdge_pathsOK g s g.edges (fun x hx => hx) _ ih

theorem astar_path_sound (g : Graph) (s t : ℕ) (p : List ℕ)
    (h : astar_path g s t = some p) : IsPathFrom g s t p := by
  rw [astar_path] at h
  exact reachTable_pathsOK g s (t, p) (lk_mem h)

theorem astar_path_complete (g : Graph) (s t : ℕ) (h : Reachable g s t) :
    astar_path g s t ≠ none := by
  rw [astar_path]
  exact reachTable_complete g s t h

theorem chain'_head_last_reachable (g : Graph) :
    ∀ (p : List ℕ) (a b : ℕ), List.Chain' (Adj g) p → p.head? = some a →
      p.getLast? = some b → Reachable g a b := by
  intro p
  induction p with
  | nil => intro a b _ hh; exact absurd hh Option.noConfusion
  | cons x rest ih =>
      intro a b hchain hh hl
      rw [List.head?_cons, Option.some.injEq] at hh
      subst hh
      cases rest with
      | nil =>
          rw [List.getLast?_singleton, Option.some.injEq] at hl
          subst hl
          exact Relation.ReflTransGen.refl
      | cons y rest' =>
          rw [List.chain'_cons] at hchain
          rw [List.getLast?_cons_cons] at hl
          exact Relation.ReflTransGen.head hchain.1
            (ih y b hchain.2 rfl hl)

theorem astar_path_some_reachable (g : Graph) (s t : ℕ) (p : List ℕ)
    (h : astar_path g s t = some p) : Reachable g s t := by
  obtain ⟨hh, hl, hchain⟩ := astar_path_sound g s t p h
  exact chain'_head_last_reachable g p s t hchain hh hl

theorem adj_iff_edgesBetween (g : Graph) (u v : ℕ) :
    Adj g u v ↔ edgesBetween g u v ≠ [] := by
  constructor
  · rintro ⟨e, he, hu, hv⟩
    refine List.ne_nil_of_mem (a := e) ?_
    rw [edgesBetween, List.mem_filter]
    exact ⟨he, by simp [hu, hv]⟩
  · intro hne
    obtain ⟨e, he⟩ := List.exists_mem_of_ne_nil _ hne
    have hmem := List.mem_filter.mp he
    have hcond := hmem.2
    simp only [decide_eq_true_eq] at hcond
    exact ⟨e, hmem.1, hcond.1, hcond.2⟩

theorem chain'_consPairs_adj (g : Graph) :
    ∀ (p : List ℕ), List.Chain' (Adj g) p →
      ∀ uv ∈ consPairs p, Adj g uv.1 uv.2 := by
  intro p
  induction p with
  | nil =>
      intro _ uv huv
      rw [show consPairs ([] : List ℕ) = [] from rfl] at huv
      exact absurd huv (List.not_mem_nil uv)
  | cons a rest ih =>
      cases rest with
      | nil =>
          intro _ uv huv
          rw [show consPairs [a] = [] from rfl] at huv
          exact absurd huv (List.not_mem_nil uv)
      | cons b rest' =>
          intro hch uv huv
          rw [consPairs] at huv
          rcases List.mem_cons.mp huv with rfl | huv
          · exact (List.chain'_cons.mp hch).1
          · exact ih (List.chain'_cons.mp hch).2 uv huv

theorem routeTotalGo_ok (g : Graph) :
    ∀ (prs : List (ℕ × ℕ)) (acc total : ℚ),
      routeTotalGo g acc prs = .ok total →
        total = acc + (prs.map fun uv =>
            ((findEdgeKey g uv.1 uv.2 0).map Edge.length).getD 0).sum
          ∧ ∀ uv ∈ prs, edgesBetween g uv.1 uv.2 ≠ [] →
              ∃ e, findEdgeKey g uv.1 uv.2 0 = some e := by
  intro prs
  induction prs with
  | nil =>
      intro acc total h
      rw [routeTotalGo] at h
      refine ⟨?_, fun uv huv => absurd huv (List.not_mem_nil uv)⟩
      rw [← Except.ok.inj h, List.map_nil, List.sum_nil, add_zero]
  | cons uv prs ih =>
      intro acc total h
      rw [routeTotalGo] at h
      by_cases hemp : edgesBetween g uv.1 uv.2 = []
      · rw [if_pos hemp] at h
        obtain ⟨hsum, hrest⟩ := ih acc total h
        have hfind : findEdgeKey g uv.1 uv.2 0 = none := by
          rw [findEdgeKey, hemp, List.find?_nil]
        refine ⟨?_, ?_⟩
        · rw [List.map_cons, List.sum_cons, hfind]
          simpa using hsum
        · intro uv' huv' hne
          rcases List.mem_cons.mp huv' with rfl | huv'
          · exact absurd hemp hne
          · exact hrest uv' huv' hne
      · rw [if_neg hemp] at h
        cases hfind : findEdgeKey g uv.1 uv.2 0 with
        | none =>
            rw [hfind] at h
            exact absurd h Except.noConfusion
        | some e =>
            rw [hfind] at h
            obtain ⟨hsum, hrest⟩ := ih (acc + e.length) total h
            refine ⟨?_, ?_⟩
            · rw [List.map_cons, List.sum_cons, hfind, hsum]
              have hred : (Option.map Edge.length (some e)).getD 0 = e.length :=
                rfl
              rw [hred, add_assoc]
            · intro uv' huv' hne
              rcases List.mem_cons.mp huv' with rfl | huv'
              · exact ⟨e, hfind⟩
              · exact hrest uv' huv' hne

/-- C5: whenever `calculate_safe_route` succeeds, the reported total equals
exactly the sum, over every consecutive vertex pair of the returned route, of
the stored `length` attribute of the traversed edge — the key-0 edge
instance, the "first/any edge used consistently" convention of §4.4 step 4 —
and such a stored edge instance exists in the graph for every pair. -/
theorem claim_C5_total_eq_sum (d : Coordinate → Coordinate → ℚ) (g : Graph)
    (a b : Coordinate) (route : List ℕ) (total : ℚ)
    (h : calculate_safe_route d g a b = .ok (route, total)) :
    (∀ uv ∈ consPairs route, ∃ e ∈ g.edges,
        e.u = uv.1 ∧ e.v = uv.2 ∧ e.key = 0 ∧
          findEdgeKey g uv.1 uv.2 0 = some e)
      ∧ total = pathLengthSum g route := by
  cases hsn : nearest_nodes d g a with
  | none =>
      rw [calculate_safe_route, hsn] at h
      exact absurd h Except.noConfusion
  | some sn =>
      cases hen : nearest_nodes d g b with
      | none =>
          rw [calculate_safe_route, hsn, hen] at h
          exact absurd h Except.noConfusion
      | some en =>
          rw [calculate_safe_route, hsn, hen] at h
          simp only [] at h
          by_cases hmem : sn ∈ nodeIds g ∧ en ∈ nodeIds g
          · rw [if_pos hmem] at h
            cases hap : astar_path g sn en with
            | none => rw [hap] at h; exact absurd h Except.noConfusion
            | some route' =>
                rw [hap] at h
                simp only [] at h
                cases hrt : routeTotal g route' with
                | error err => rw [hrt] at h; exact absurd h Except.noConfusion
                | ok total' =>
                    rw [hrt] at h
                    have hpair := Except.ok.inj h
                    have hroute : route' = route := congrArg Prod.fst hpair
                    have htotal : total' = total := congrArg Prod.snd hpair
                    subst hroute; subst htotal
                    rw [routeTotal] at hrt
                    obtain ⟨hsum, hkeys⟩ := routeTotalGo_ok g _ 0 total' hrt
                    have hchain := (astar_path_sound g sn en route' hap).2.2
                    refine ⟨?_, ?_⟩
                    · intro uv huv
                      have hadj := chain'_consPairs_adj g route' hchain uv huv
                      have hne := (adj_iff_edgesBetween g uv.1 uv.2).mp hadj
                      obtain ⟨e, hfind⟩ := hkeys uv huv hne
                      have hmem' := List.mem_of_find?_eq_some hfind
                      have hkey := List.find?_some hfind
                      simp only [decide_eq_true_eq] at hkey
                      have hfil := List.mem_filter.mp hmem'
                      have hcond := hfil.2
                      simp only [decide_eq_true_eq] at hcond
                      exact ⟨e, hfil.1, hcond.1, hcond.2, hkey, hfind⟩
                    · rw [hsum, zero_add, pathLengthSum]
          · rw [if_neg hmem] at h
            exact absurd h Except.noConfusion

/-- C5 witness: a concrete successful run (start and end snapping to the
same vertex) whose reported total equals the independently computed sum. -/
theorem claim_C5_witness :
    calculate_safe_route (fun _ _ => (0 : ℚ))
        ⟨[(1, ⟨0, 0⟩), (2, ⟨1, 0⟩)], [⟨1, 2, 0, 100⟩]⟩ ⟨0, 0⟩ ⟨0, 0⟩ =
        .ok ([1], 0)
      ∧ (0 : ℚ) = pathLengthSum
          ⟨[(1, ⟨0, 0⟩), (2, ⟨1, 0⟩)], [⟨1, 2, 0, 100⟩]⟩ [1] :=
  ⟨rfl,
    (claim_C5_total_eq_sum (fun _ _ => (0 : ℚ))
      ⟨[(1, ⟨0, 0⟩), (2, ⟨1, 0⟩)], [⟨1, 2, 0, 100⟩]⟩ ⟨0, 0⟩ ⟨0, 0⟩ [1] 0
      rfl).2⟩

/-- Concrete pruned graph on which the length summation crashes: the only
edge instance from vertex 1 to vertex 2 carries the multi-edge key 1, so
`graph[1][2][0]` raises `KeyError`.  Such graphs arise from pruning a
multigraph whose key-0 parallel edge was removed while the key-1 edge
survived, and are legitimate inputs of `calculate_safe_route`. -/
def crashGraph : Graph := ⟨[(1, ⟨0, 0⟩), (2, ⟨1, 0⟩)], [⟨1, 2, 1, 5⟩]⟩

/-- Latitude-comparing stand-in distance used to drive the endpoint snapping
of the crash scenario. -/
def latDist : Coordinate → Coordinate → ℚ :=
  fun p q => if p.lat = q.lat then 0 else 1

/-- C3 (code bug): both endpoints snap to vertices of the graph and a
directed path connects them, so the claim (and §7 of the specification)
promises a returned path and length or a typed failure; instead the length
summation reads `graph[u][v][0]` and raises an untyped `KeyError` because
the only parallel edge between the route's consecutive vertices carries
key 1.  The model evaluates the code at this failing input. -/
theorem claim_C3_keyError_crash :
    nearest_nodes latDist crashGraph ⟨0, 0⟩ = some 1
      ∧ nearest_nodes latDist crashGraph ⟨1, 0⟩ = some 2
      ∧ (1 ∈ nodeIds crashGraph ∧ 2 ∈ nodeIds crashGraph)
      ∧ Reachable crashGraph 1 2
      ∧ calculate_safe_route latDist crashGraph ⟨0, 0⟩ ⟨1, 0⟩ =
          .error .keyError :=
  ⟨rfl, rfl, ⟨by decide, by decide⟩,
    Relation.ReflTransGen.single ⟨⟨1, 2, 1, 5⟩, by decide, rfl, rfl⟩,
    rfl⟩

/-- A list of edge instances forming a chain from `u` to `t` in `g`. -/
def EdgeChain (g : Graph) : ℕ → ℕ → List Edge → Prop
  | u, t, [] => u = t
  | u, t, e :: es => e ∈ g.edges ∧ e.u = u ∧ EdgeChain g e.v t es

/-- Total stored length of a chain of edges (the true cost of that path). -/
def chainCost (es : List Edge) : ℚ := (es.map Edge.length).sum

theorem edgeChain_dist_le (d : Coordinate → Coordinate → ℚ) (g : Graph)
    (hself : ∀ p, d p p = 0)
    (htri : ∀ p q r, d p r ≤ d p q + d q r)
    (hlen : ∀ e ∈ g.edges, d (nodeCoord g e.u) (nodeCoord g e.v) ≤ e.length) :
    ∀ (es : List Edge) (u t : ℕ), EdgeChain g u t es →
      d (nodeCoord g u) (nodeCoord g t) ≤ chainCost es := by
  intro es
  induction es with
  | nil =>
      intro u t hch
      rw [EdgeChain] at hch
      subst hch
      rw [hself, chainCost, List.map_nil, List.sum_nil]
  | cons e es ih =>
      intro u t hch
      rw [EdgeChain] at hch
      obtain ⟨he, hu, hrest⟩ := hch
      subst hu
      calc d (nodeCoord g e.u) (nodeCoord g t)
          ≤ d (nodeCoord g e.u) (nodeCoord g e.v) +
              d (nodeCoord g e.v) (nodeCoord g t) := htri _ _ _
        _ ≤ e.length + chainCost es :=
            add_le_add (hlen e he) (ih e.v t hrest)
        _ = chainCost (e :: es) := by
            rw [chainCost, chainCost, List.map_cons, List.sum_cons]

/-- C4 (amended): the heuristic of `calculate_safe_route` is the geodesic
distance in kilometers — the meter-valued distance divided by 1000, not a
value in the meter unit of the edge weights — and, for any distance
satisfying the metric facts §4.1/§4.4 state for the geodesic and any graph
whose stored edge lengths dominate the endpoint distances, it never exceeds
the true cost of any path from the vertex to the goal (admissibility, with a
factor-1000 margin). -/
theorem claim_C4_heuristic_km_admissible (d : Coordinate → Coordinate → ℚ)
    (g : Graph) (hd0 : ∀ p q, 0 ≤ d p q) (hself : ∀ p, d p p = 0)
    (htri : ∀ p q r, d p r ≤ d p q + d q r)
    (hlen : ∀ e ∈ g.edges, d (nodeCoord g e.u) (nodeCoord g e.v) ≤ e.length)
    (u t : ℕ) (es : List Edge) (hchain : EdgeChain g u t es) :
    heuristic d g u t = d (nodeCoord g u) (nodeCoord g t) / 1000
      ∧ heuristic d g u t ≤ chainCost es := by
  refine ⟨rfl, ?_⟩
  have hd := edgeChain_dist_le d g hself htri hlen es u t hchain
  have hdiv : d (nodeCoord g u) (nodeCoord g t) / 1000 ≤
      d (nodeCoord g u) (nodeCoord g t) :=
    div_le_self (hd0 _ _) (by norm_num)
  rw [heuristic]
  exact le_trans hdiv hd

/-- C4 counterexample: at a concrete graph and a concrete meter-valued
distance assigning 1000 meters to the two vertices, the heuristic evaluates
to 1 (a kilometer figure), not to the meter-valued distance 1000 — the
claimed unit consistency with the meter-valued edge weights fails (the code
reads `geodesic(...).km` while edge weights are `length` in meters). -/
theorem claim_C4_counterexample :
    heuristic (fun p q => if p = q then 0 else 1000) crashGraph 1 2 ≠
        (fun p q : Coordinate => if p = q then (0 : ℚ) else 1000)
          (nodeCoord crashGraph 1) (nodeCoord crashGraph 2)
      ∧ (fun p q : Coordinate => if p = q then (0 : ℚ) else 1000)
          (nodeCoord crashGraph 1) (nodeCoord crashGraph 2) = 1000 := by
  have hne : nodeCoord crashGraph 1 ≠ nodeCoord crashGraph 2 := by decide
  constructor
  · simp only [heuristic]
    rw [if_neg hne]
    norm_num
  · simp only []
    rw [if_neg hne]

/-- C4 witness: the amended theorem applied to a concrete distance function
(identically zero, which satisfies all the §4.1 facts), a concrete graph and
a concrete one-edge chain. -/
theorem claim_C4_witness :
    heuristic (fun _ _ => (0 : ℚ))
        ⟨[(1, ⟨0, 0⟩), (2, ⟨1, 0⟩)], [⟨1, 2, 0, 100⟩]⟩ 1 2 =
        (0 : ℚ) / 1000
      ∧ heuristic (fun _ _ => (0 : ℚ))
          ⟨[(1, ⟨0, 0⟩), (2, ⟨1, 0⟩)], [⟨1, 2, 0, 100⟩]⟩ 1 2 ≤
        chainCost [⟨1, 2, 0, 100⟩] :=
  claim_C4_heuristic_km_admissible (fun _ _ => (0 : ℚ))
    ⟨[(1, ⟨0, 0⟩), (2, ⟨1, 0⟩)], [⟨1, 2, 0, 100⟩]⟩
    (fun _ _ => le_refl 0) (fun _ => rfl)
    (fun _ _ _ => by simp)
    (by decide) 1 2 [⟨1, 2, 0, 100⟩] ⟨by decide, rfl, rfl⟩

end HazardRouting
